import Mathlib

/-!
Shallow embedding of the glue helper functions of the `roman_notebooks`
repository (tutorial notebooks for the Roman Space Telescope platform),
and verification of the specification's claims about them.

External libraries (Pandeia, scipy, numpy's Mersenne-Twister stream,
galsim's renderer, astroquery's Gaia client) are modelled as oracle
parameters: deterministic functions supplied to each embedded helper.
Only the glue logic written in the notebooks themselves is transcribed.
-/

namespace RomanNotebooks

/-! ### Data-quality bit decoding (aperture_photometry notebook)

The notebook decodes each data-quality flag `uu` with
`np.binary_repr(uu)` and a loop over the reversed digit string, printing
the position `ii` and the value `2**ii` of each `'1'` digit. -/

/-- Little-endian binary digits of a natural number; `[]` for `0`.
Helper for `binary_repr` (numpy returns the most-significant-first
string with no leading zeros). -/
def binRec : ℕ → List Char
  | 0 => []
  | n + 1 =>
    (if (n + 1) % 2 = 1 then '1' else '0') :: binRec ((n + 1) / 2)
decreasing_by exact Nat.div_lt_self (Nat.succ_pos n) (by norm_num)

/-- `np.binary_repr` for a non-negative argument: most-significant-first
binary digit string, `"0"` for `0`, no leading zeros. -/
def binary_repr (u : ℕ) : List Char :=
  if u = 0 then ['0'] else (binRec u).reverse

/-- The decoding loop body: `for ii, cc in enumerate(br[::-1]): if
int(cc)==1: print('Bits on:', ii, 2**ii)`, with the running index made
explicit.  Returns the list of printed positions `ii`, in print order. -/
def bitsOnAux : ℕ → List Char → List ℕ
  | _, [] => []
  | i, c :: rest =>
    if c = '1' then i :: bitsOnAux (i + 1) rest else bitsOnAux (i + 1) rest

/-- The positions printed by the data-quality decoding loop for flag
value `uu`: indices of `'1'` digits of `np.binary_repr(uu)` read
least-significant first. -/
def bits_on (uu : ℕ) : List ℕ :=
  bitsOnAux 0 (binary_repr uu).reverse

/-! ### Linear interpolation (pandeia notebook)

`_mag2sn_(mag_range, computed_snrs, sntarget)` is
`interpolate.interp1d(computed_snrs, mag_range)(sntarget)`.  scipy's
`interp1d` with the default options sorts the abscissae (with the
ordinates carried along), then evaluates the piecewise-linear
interpolant through the sorted points.  Arithmetic is modelled exactly
over `ℚ`. -/

/-- The affine function through the two points `p` and `q`, evaluated at
`t`: the segment formula scipy's linear interpolator uses on one
interval. -/
def lin (p q : ℚ × ℚ) (t : ℚ) : ℚ :=
  p.2 + (t - p.1) * (q.2 - p.2) / (q.1 - p.1)

/-- Evaluate the piecewise-linear interpolant through a list of points
sorted by ascending abscissa: use the first segment whose right
endpoint is at or beyond `t`. -/
def interpSegs : List (ℚ × ℚ) → ℚ → ℚ
  | [], _ => 0
  | [p], _ => p.2
  | p :: q :: rest, t => if t ≤ q.1 then lin p q t else interpSegs (q :: rest) t

/-- Insert a point into a list of points sorted by ascending abscissa. -/
def insertPair (p : ℚ × ℚ) : List (ℚ × ℚ) → List (ℚ × ℚ)
  | [] => [p]
  | q :: rest => if p.1 ≤ q.1 then p :: q :: rest else q :: insertPair p rest

/-- Sort a list of points by ascending abscissa (the reordering scipy's
`interp1d` performs when `assume_sorted` is left at its default). -/
def sortPairs : List (ℚ × ℚ) → List (ℚ × ℚ)
  | [] => []
  | p :: rest => insertPair p (sortPairs rest)

/-- `scipy.interpolate.interp1d(x, y)` with default options (linear
kind), evaluated at `t`: sort the points by abscissa and evaluate the
piecewise-linear interpolant. -/
def interp1d (x y : List ℚ) (t : ℚ) : ℚ :=
  interpSegs (sortPairs (x.zip y)) t

/-- The notebook's `_mag2sn_`: interpolate magnitude as a function of
signal-to-noise by calling `interp1d(computed_snrs, mag_range)` at
`sntarget`. -/
def _mag2sn_ (mag_range computed_snrs : List ℚ) (sntarget : ℚ) : ℚ :=
  interp1d computed_snrs mag_range sntarget

/-- Python's `int(.)` / `np.int64(.)` on a rational value: truncation
toward zero. -/
def pyInt (x : ℚ) : ℤ :=
  if 0 ≤ x then ⌊x⌋ else ⌈x⌉

/-! ### Pandeia exposure-time calculations (pandeia notebook)

The Pandeia calculation dictionary: the glue code only ever touches the
source normalization (`norm_flux`, `norm_fluxunit`, `norm_waveunit`),
the detector's `nexp` and the instrument `filter`; everything else in
`build_default_calc('roman', 'wfi', 'imaging')` is carried along
untouched, abstracted here as a field of arbitrary type `π`.
`perform_calculation` is the external Pandeia engine, an oracle
function; `Report` is the part of its report the glue reads. -/

structure Calc (π : Type) where
  norm_flux : ℚ
  norm_fluxunit : String
  norm_waveunit : String
  nexp : ℤ
  filter : String
  rest : π

/-- The scalars read out of a Pandeia report by the notebook's helpers. -/
structure Report where
  sn : ℚ
  total_exposure_time : ℚ

/-- The notebook's `compute_mag(filt, nexp, bracket)`: configure the
default calculation for an AB-magnitude point source, then for each
integer magnitude of `np.arange(bracket[0], bracket[1]+1, 1)` run the
external `perform_calculation` and collect the reported scalar S/N. -/
def compute_mag {π : Type} (perform_calculation : Calc π → Report)
    (build_default_calc : Calc π) (filt : String) (nexp : ℤ)
    (bracket : ℤ × ℤ) : List ℤ × List ℚ :=
  let calcd := { build_default_calc with
    norm_fluxunit := "abmag", norm_waveunit := "um", nexp := nexp, filter := filt }
  let mag_range := (List.range (bracket.2 + 1 - bracket.1).toNat).map
    (fun m : ℕ => bracket.1 + (m : ℤ))
  let computed_snrs := mag_range.map
    (fun mag => (perform_calculation { calcd with norm_flux := (mag : ℚ) }).sn)
  (mag_range, computed_snrs)

/-- The notebook's `_nexp2sn_(nexp, calc, sntarget)`: the scalar
objective handed to scipy's `minimize_scalar`, the squared gap between
the required S/N and the S/N Pandeia reports at `int(nexp)` exposures. -/
def _nexp2sn_ {π : Type} (perform_calculation : Calc π → Report)
    (nexp : ℚ) (calcd : Calc π) (sntarget : ℚ) : ℚ :=
  let calcd := { calcd with nexp := pyInt nexp }
  let etc := perform_calculation calcd
  (sntarget - etc.sn) ^ 2

/-- The notebook's `compute_nexp(filt, sn, mag, bracket, xtol)`.
`minimize_scalar` is scipy's bounded scalar minimizer, an oracle taking
the objective, the bracket/bounds pair and the `xatol` tolerance and
returning the solution `res['x']`. -/
def compute_nexp {π : Type} (perform_calculation : Calc π → Report)
    (minimize_scalar : (ℚ → ℚ) → ℤ × ℤ → ℚ → ℚ)
    (build_default_calc : Calc π) (filt : String) (sn mag : ℚ)
    (bracket : ℤ × ℤ) (xtol : ℚ) : ℤ × Report × ℚ :=
  let calcd := { build_default_calc with
    norm_flux := mag, norm_fluxunit := "abmag", norm_waveunit := "um",
    filter := filt, nexp := 1 }
  let report := perform_calculation calcd
  if report.sn > sn then
    (1, report, report.total_exposure_time)
  else
    let res_x := minimize_scalar
      (fun nexp => _nexp2sn_ perform_calculation nexp calcd sn) bracket xtol
    let nexp := pyInt res_x
    let calc2 := { calcd with nexp := nexp }
    let report2 := perform_calculation calc2
    let nexp2 := if report2.sn < sn then nexp + 1 else nexp
    (nexp2, report2, report2.total_exposure_time)

/-! ### Synthetic catalog generation (romanisim_romancal notebook)

numpy's legacy global random generator, as the notebook uses it:
`np.random.seed(seed)` resets the global state to a function of the
seed alone; each `np.random.uniform(size=k)` consumes the next `k`
values of the resulting deterministic stream.  The stream itself (the
Mersenne-Twister output) is the oracle `draw`, a function of the seed
and the position in the stream. -/

structure GlobalRng where
  seedVal : ℤ
  pos : ℕ

/-- `np.random.seed(s)`: reset the global generator; the previous state
is discarded. -/
def npSeed (s : ℤ) (_g : GlobalRng) : GlobalRng := ⟨s, 0⟩

/-- `np.random.uniform(size=k)`: the next `k` stream values, and the
advanced generator state. -/
def npUniform (draw : ℤ → ℕ → ℚ) (size : ℕ) (g : GlobalRng) :
    List ℚ × GlobalRng :=
  ((List.range size).map (fun k => draw g.seedVal (g.pos + k)),
   ⟨g.seedVal, g.pos + size⟩)

/-- The numpy float routines the catalog generator calls
(`np.sqrt`, `np.cos`, `np.radians`, `np.power(10.0, ·)`): deterministic
external functions, abstracted as oracles since no claim depends on
their values. -/
structure MathOps where
  sqrt : ℚ → ℚ
  cos : ℚ → ℚ
  radians : ℚ → ℚ
  pow10 : ℚ → ℚ

/-- The table `make_catalog_synthetic` hands to
`astropy.io.ascii.write`: the column-name list passed as `names=` and
the eight column arrays of the dict `d`. -/
structure Catalog where
  names : List String
  ra : List ℚ
  dec : List ℚ
  type : List String
  n : List ℤ
  half_light_radius : List ℚ
  pa : List ℚ
  ba : List ℚ
  F158 : List ℚ

/-- The notebook's `make_catalog_synthetic`: seed the global numpy
generator, draw the source positions, shapes and fluxes, and write the
eight-column catalog.  Returns the written table and the final
generator state. -/
def make_catalog_synthetic (draw : ℤ → ℕ → ℚ) (ops : MathOps) (g0 : GlobalRng)
    (_outfile_name : String) (ra dec : ℚ) (_bandpass : String)
    (n_ser n_psf : ℕ) (area : ℚ) (seed : ℤ) : Catalog × GlobalRng :=
  let g := npSeed seed g0
  let scale := ops.sqrt (area / 18)
  let n_sources := n_psf + n_ser
  let (u_ra, g) := npUniform draw n_sources g
  let ra_col := u_ra.map (fun u => ra + (u - 1/2) * scale * 6 / ops.cos (ops.radians dec))
  let (u_dec, g) := npUniform draw n_sources g
  let dec_col := u_dec.map (fun u => dec + (u - 1/2) * scale * 3)
  let type_col := List.replicate n_psf "PSF" ++ List.replicate n_ser "SER"
  let (u_n, g) := npUniform draw n_sources g
  let n_col := u_n.map (fun u => pyInt (2 + u * 2))
  let (u_hlr, g) := npUniform draw n_sources g
  let hlr_col := u_hlr.map (fun u => 3 + u * 5)
  let (u_pa, g) := npUniform draw n_sources g
  let pa_col := u_pa.map (fun u => u * 90)
  let (u_ba, g) := npUniform draw n_sources g
  let ba_col := u_ba.map (fun u => 3/10 + u * (7/10))
  let (u_psf, g) := npUniform draw n_psf g
  let temp1 := u_psf.map (fun u => ops.pow10 u * (1/100000000))
  let (u_ser, g) := npUniform draw n_ser g
  let temp2 := u_ser.map (fun u => ops.pow10 u * (1/10000000))
  let f158_col := temp1 ++ temp2
  (⟨["ra", "dec", "type", "n", "half_light_radius", "pa", "ba", "F158"],
    ra_col, dec_col, type_col, n_col, hlr_col, pa_col, ba_col, f158_col⟩, g)

/-! ### Gaia catalog generation (romanisim_romancal notebook) -/

/-- The Gaia query result the glue touches: the `phot_g_mean_mag`
column, with the remaining columns carried along untouched as a field
of arbitrary type `γ`. -/
structure GaiaTable (γ : Type) where
  phot_g_mean_mag : List ℚ
  other : γ

/-- Python's `str.endswith(suffix)`, on the character sequences of the
two strings. -/
def endswith (s suffix : String) : Bool :=
  List.isSuffixOf suffix.data s.data

/-- The notebook's `make_catalog_gaia`.  `launch_job` is the external
astroquery round-trip (`Gaia.launch_job_async` + `get_results`) as a
function of the ADQL query string; `gaia2romanisimcat` is romanisim's
external converter (applied with `astropy.time.Time(date)` and
`fluxfields=set(bandpasses)`), whose output is what gets written;
`default_bandpasses` stands for
`set(romanisim.bandpass.galsim2roman_bandpass.values())`.  The
`RuntimeError` raised by the glue itself is the `Except.error` case. -/
def make_catalog_gaia {γ δ : Type} (launch_job : String → GaiaTable γ)
    (gaia2romanisimcat : GaiaTable γ → String → List String → δ)
    (default_bandpasses : List String) (outfile_name : String)
    (ra dec : ℚ) (date : String) (bandpasses : Option (List String))
    (radius : ℚ) (row_limit : ℤ) : Except String δ :=
  let row_limit_s := if row_limit > -1 then "TOP " ++ toString row_limit else ""
  let q := "select " ++ row_limit_s ++ " * from gaiadr3.gaia_source where distance("
    ++ toString ra ++ ", " ++ toString dec ++ ", ra, dec) < " ++ toString radius
  let r := launch_job q
  let r := { r with phot_g_mean_mag := r.phot_g_mean_mag.map (fun m => m + 5) }
  let bps := match bandpasses with
    | none => default_bandpasses
    | some l => l
  if endswith outfile_name ".ecsv" then
    Except.ok (gaia2romanisimcat r date bps)
  else
    Except.error "output file name should end with .ecsv"

/-! ### Sersic profile fitting (aperture_photometry notebook)

galsim surface-brightness profiles are immutable values; the glue
builds them with `galsim.Sersic`, `shear` and `Convolve`.  Rendering
(`drawImage` into a `galsim.ImageD(nx, ny)`, whose array has shape
`(ny, nx)`) is the external renderer, an oracle giving each pixel's
value as a function of the profile, the offset and the pixel position. -/

inductive GSObject where
  | sersic (n : ℚ) (half_light_radius : ℚ) (flux : ℚ) : GSObject
  | sheared (base : GSObject) (q : ℚ) (beta : ℚ) : GSObject
  | convolve (a b : GSObject) : GSObject
  | loaded (k : ℕ) : GSObject

/-- `GSObject.shear(q=..., beta=...)`: returns a new, sheared profile
(galsim profiles are immutable; the receiver is unchanged). -/
def GSObject.shear (o : GSObject) (q beta : ℚ) : GSObject :=
  GSObject.sheared o q beta

/-- The pixel grid of `galsim.ImageD(nx, ny)` after
`obj.drawImage(image=img, offset=offset)`: `ny` rows of `nx` pixels,
each pixel painted by the external renderer `drawO`. -/
def drawImageArray (drawO : GSObject → ℚ × ℚ → ℕ → ℕ → ℚ)
    (obj : GSObject) (nx ny : ℕ) (offset : ℚ × ℚ) : List (List ℚ) :=
  (List.range ny).map (fun r => (List.range nx).map (fun c => drawO obj offset r c))

/-- The notebook's `sersic_mod(cutout, n, hlr, flux, pa, x0, y0, q)`:
the `curve_fit` model.  Only the cutout's array shape `(nx, ny)` is
read; `zp` is the notebook's zero-point global; `psf_obj` the loaded
PSF profile.  As in the source, the result of `ser.shear(...)` is
discarded. -/
def sersic_mod (drawO : GSObject → ℚ × ℚ → ℕ → ℕ → ℚ) (psf_obj : GSObject)
    (zp : ℚ) (cutout_shape : ℕ × ℕ) (n hlr flux pa x0 y0 q : ℚ) : List ℚ :=
  let nx := cutout_shape.1
  let ny := cutout_shape.2
  let flux := flux * zp
  let ser := GSObject.sersic n hlr flux
  let _discarded := ser.shear q pa
  let offset := (x0, y0)
  let ser := GSObject.convolve ser psf_obj
  let img := drawImageArray drawO ser nx ny offset
  img.flatten

end RomanNotebooks

namespace RomanNotebooks

/-! ### Lemmas for the bit-decoding loop -/

theorem binRec_succ (n : ℕ) :
    binRec (n + 1) =
      (if (n + 1) % 2 = 1 then '1' else '0') :: binRec ((n + 1) / 2) := by
  rw [binRec]

/-- Sum of the powers `2^ii` over the positions collected by the loop,
with a shifted starting index. -/
theorem bitsOnAux_sum (l : List Char) :
    ∀ i : ℕ, ((bitsOnAux i l).map (fun j => 2 ^ j)).sum
      = 2 ^ i * ((bitsOnAux 0 l).map (fun j => 2 ^ j)).sum := by
  induction l with
  | nil => intro i; simp [bitsOnAux]
  | cons c rest ih =>
    intro i
    by_cases hc : c = '1' <;>
      simp only [bitsOnAux, hc, if_true, if_false, List.map_cons, List.sum_cons,
        reduceIte] <;>
      rw [ih (i + 1), ih 1] <;> ring

theorem binRec_sum (u : ℕ) :
    ((bitsOnAux 0 (binRec u)).map (fun j => 2 ^ j)).sum = u := by
  induction u using Nat.strong_induction_on with
  | _ u ih =>
    match u with
    | 0 => simp [binRec, bitsOnAux]
    | n + 1 =>
      rw [binRec_succ]
      have hdiv : (n + 1) / 2 < n + 1 := Nat.div_lt_self (Nat.succ_pos n) (by norm_num)
      have hrec := ih ((n + 1) / 2) hdiv
      by_cases h : (n + 1) % 2 = 1
      · simp only [h, if_true, bitsOnAux, reduceIte, List.map_cons, List.sum_cons]
        rw [bitsOnAux_sum _ 1, hrec]
        have := Nat.div_add_mod (n + 1) 2
        omega
      · simp only [h, if_false, reduceIte, bitsOnAux]
        have hch : ¬ ('0' = '1') := by decide
        simp only [bitsOnAux, hch, if_false, reduceIte]
        rw [bitsOnAux_sum _ 1, hrec]
        have := Nat.div_add_mod (n + 1) 2
        omega

theorem bitsOnAux_mem (l : List Char) :
    ∀ i j : ℕ, j ∈ bitsOnAux i l ↔
      ∃ k, ∃ hk : k < l.length, j = i + k ∧ l.get ⟨k, hk⟩ = '1' := by
  induction l with
  | nil => intro i j; simp [bitsOnAux]
  | cons c rest ih =>
    intro i j
    by_cases hc : c = '1'
    · simp only [bitsOnAux, hc, if_true, reduceIte, List.mem_cons, ih (i + 1) j]
      constructor
      · rintro (rfl | ⟨k, hk, rfl, hget⟩)
        · exact ⟨0, Nat.succ_pos _, by omega, by simp [hc]⟩
        · exact ⟨k + 1, by simpa using Nat.succ_lt_succ hk, by omega, by simpa using hget⟩
      · rintro ⟨k, hk, rfl, hget⟩
        match k with
        | 0 => left; omega
        | k + 1 =>
          right
          exact ⟨k, by simpa using Nat.lt_of_succ_lt_succ hk, by omega, by simpa using hget⟩
    · simp only [bitsOnAux, hc, if_false, reduceIte, ih (i + 1) j]
      constructor
      · rintro ⟨k, hk, rfl, hget⟩
        exact ⟨k + 1, by simpa using Nat.succ_lt_succ hk, by omega, by simpa using hget⟩
      · rintro ⟨k, hk, rfl, hget⟩
        match k with
        | 0 => exact absurd (by simpa using hget) hc
        | k + 1 =>
          exact ⟨k, by simpa using Nat.lt_of_succ_lt_succ hk, by omega, by simpa using hget⟩

theorem binRec_testBit (u : ℕ) :
    ∀ k, (∃ hk : k < (binRec u).length, (binRec u).get ⟨k, hk⟩ = '1')
      ↔ u.testBit k = true := by
  induction u using Nat.strong_induction_on with
  | _ u ih =>
    match u with
    | 0 => intro k; simp [binRec, Nat.testBit]
    | n + 1 =>
      intro k
      rw [binRec_succ]
      have hdiv : (n + 1) / 2 < n + 1 := Nat.div_lt_self (Nat.succ_pos n) (by norm_num)
      match k with
      | 0 =>
        simp only [List.length_cons, List.get]
        rw [Nat.testBit_zero]
        by_cases h : (n + 1) % 2 = 1
        · simp [h]
        · simp only [h, if_false, reduceIte]
          constructor
          · rintro ⟨-, hget⟩
            exact absurd hget (by decide)
          · intro hb
            simp at hb
      | k + 1 =>
        rw [Nat.testBit_succ, ← ih ((n + 1) / 2) hdiv k]
        constructor
        · rintro ⟨hk, hget⟩
          exact ⟨by simpa using Nat.lt_of_succ_lt_succ hk, by simpa using hget⟩
        · rintro ⟨hk, hget⟩
          exact ⟨by simpa using Nat.succ_lt_succ hk, by simpa using hget⟩

theorem bits_on_eq_binRec (uu : ℕ) :
    bits_on uu = bitsOnAux 0 (binRec uu) := by
  by_cases h : uu = 0
  · subst h; simp [bits_on, binary_repr, binRec, bitsOnAux]
  · simp [bits_on, binary_repr, h]

/-- C9, combined form used below: membership characterisation. -/
theorem bits_on_mem (uu j : ℕ) : j ∈ bits_on uu ↔ uu.testBit j = true := by
  rw [bits_on_eq_binRec, bitsOnAux_mem]
  rw [← binRec_testBit]
  constructor
  · rintro ⟨k, hk, rfl, hget⟩; exact ⟨by simpa using hk, by simpa using hget⟩
  · rintro ⟨hk, hget⟩; exact ⟨j, hk, by omega, hget⟩

/-! ### Lemmas for the linear interpolation -/

theorem lin_left (p q : ℚ × ℚ) : lin p q p.1 = p.2 := by
  simp [lin]

theorem lin_right {p q : ℚ × ℚ} (h : p.1 ≠ q.1) : lin p q q.1 = q.2 := by
  unfold lin
  have hne : q.1 - p.1 ≠ 0 := sub_ne_zero.mpr (Ne.symm h)
  rw [mul_comm, mul_div_assoc, div_self hne, mul_one]
  ring

theorem lin_symm {p q : ℚ × ℚ} (h : p.1 ≠ q.1) (t : ℚ) : lin p q t = lin q p t := by
  unfold lin
  have h1 : q.1 - p.1 ≠ 0 := sub_ne_zero.mpr (Ne.symm h)
  have h2 : p.1 - q.1 ≠ 0 := sub_ne_zero.mpr h
  field_simp
  ring

theorem insertPair_cons_of_le {p q : ℚ × ℚ} {l : List (ℚ × ℚ)} (h : p.1 ≤ q.1) :
    insertPair p (q :: l) = p :: q :: l := by
  simp [insertPair, h]

theorem sortPairs_of_sorted :
    ∀ {l : List (ℚ × ℚ)}, l.Pairwise (fun a b => a.1 ≤ b.1) → sortPairs l = l := by
  intro l
  induction l with
  | nil => intro _; rfl
  | cons p rest ih =>
    intro hp
    rw [List.pairwise_cons] at hp
    rw [sortPairs, ih hp.2]
    cases rest with
    | nil => rfl
    | cons q rest2 => exact insertPair_cons_of_le (hp.1 q (by simp))

theorem insertPair_of_gt {p : ℚ × ℚ} :
    ∀ {l : List (ℚ × ℚ)}, (∀ q ∈ l, q.1 < p.1) → insertPair p l = l ++ [p] := by
  intro l
  induction l with
  | nil => intro _; rfl
  | cons q rest ih =>
    intro h
    have hq : q.1 < p.1 := h q (by simp)
    rw [insertPair, if_neg (not_le.mpr hq), ih (fun r hr => h r (by simp [hr]))]
    rfl

theorem sortPairs_of_revsorted :
    ∀ {l : List (ℚ × ℚ)}, l.Pairwise (fun a b => b.1 < a.1) → sortPairs l = l.reverse := by
  intro l
  induction l with
  | nil => intro _; rfl
  | cons p rest ih =>
    intro hp
    rw [List.pairwise_cons] at hp
    rw [sortPairs, ih hp.2, insertPair_of_gt, List.reverse_cons]
    intro q hq
    rw [List.mem_reverse] at hq
    exact hp.1 q hq

theorem interpSegs_append (t : ℚ) :
    ∀ (l1 : List (ℚ × ℚ)) (p q : ℚ × ℚ) (l2 : List (ℚ × ℚ)),
      (l1 ++ p :: q :: l2).Pairwise (fun a b => a.1 < b.1) →
      p.1 ≤ t → t ≤ q.1 →
      interpSegs (l1 ++ p :: q :: l2) t = lin p q t := by
  intro l1
  induction l1 with
  | nil =>
    intro p q l2 _ h1 h2
    rw [List.nil_append, interpSegs, if_pos h2]
  | cons a l1 ih =>
    intro p q l2 hp h1 h2
    rw [List.cons_append] at hp ⊢
    rw [List.pairwise_cons] at hp
    cases l1 with
    | nil =>
      have hap : a.1 < p.1 := hp.1 p (by simp)
      rw [List.nil_append] at hp ⊢
      rw [interpSegs]
      by_cases hcase : t ≤ p.1
      · have ht : t = p.1 := le_antisymm hcase h1
        rw [if_pos hcase, ht, lin_right (ne_of_lt hap), lin_left]
      · rw [if_neg hcase, interpSegs, if_pos h2]
    | cons b l1 =>
      have hbt : b.1 < t := by
        have hbp : b.1 < p.1 := by
          rcases List.pairwise_cons.mp hp.2 with ⟨hhead, -⟩
          exact hhead p (by simp)
        exact lt_of_lt_of_le hbp h1
      rw [List.cons_append, interpSegs, if_neg (not_le.mpr hbt), ← List.cons_append]
      exact ih p q l2 hp.2 h1 h2

theorem interpSegs_getElem (t : ℚ) (l : List (ℚ × ℚ)) (i : ℕ) (hi : i + 1 < l.length)
    (hp : l.Pairwise (fun a b => a.1 < b.1))
    (h1 : l[i].1 ≤ t) (h2 : t ≤ l[i + 1].1) :
    interpSegs l t = lin l[i] l[i + 1] t := by
  have hdecomp : l = l.take i ++ l[i] :: l[i + 1] :: l.drop (i + 2) := by
    conv_lhs => rw [← List.take_append_drop i l]
    rw [List.drop_eq_getElem_cons (by omega), List.drop_eq_getElem_cons (by omega)]
  rw [hdecomp] at hp
  have h := interpSegs_append t (l.take i) l[i] l[i + 1] (l.drop (i + 2)) hp h1 h2
  rw [← hdecomp] at h
  exact h

theorem zip_pairwise_fst {R : ℚ → ℚ → Prop} {x y : List ℚ}
    (h : x.Pairwise R) : (x.zip y).Pairwise (fun a b => R a.1 b.1) := by
  rw [List.pairwise_iff_getElem] at h ⊢
  intro i j hi hj hij
  have hxi : i < x.length := by rw [List.length_zip] at hi; omega
  have hxj : j < x.length := by rw [List.length_zip] at hj; omega
  simp only [List.getElem_zip]
  exact h i j hxi hxj hij

/-- C1: for a lookup table of parallel arrays `computed_snrs` (strictly
monotonic, in either direction) and `mag_range`, and a target S/N lying
in the segment between two adjacent tabulated S/N values, `_mag2sn_`
returns the piecewise-linear interpolation of the points
`(computed_snrs[i], mag_range[i])` evaluated at `sntarget`; at
`sntarget = computed_snrs[i]` the formula reduces to exactly
`mag_range[i]`. -/
theorem mag2sn_is_piecewise_linear_interpolation
    (mag_range computed_snrs : List ℚ)
    (hlen : computed_snrs.length = mag_range.length)
    (hmono : computed_snrs.Pairwise (· < ·) ∨ computed_snrs.Pairwise (fun a b => b < a))
    (i : ℕ) (hi : i + 1 < computed_snrs.length) (t : ℚ)
    (hseg : computed_snrs[i] ≤ t ∧ t ≤ computed_snrs[i + 1]
          ∨ computed_snrs[i + 1] ≤ t ∧ t ≤ computed_snrs[i]) :
    _mag2sn_ mag_range computed_snrs t
      = mag_range[i] + (t - computed_snrs[i]) * (mag_range[i + 1] - mag_range[i])
          / (computed_snrs[i + 1] - computed_snrs[i]) := by
  have hzlen : (computed_snrs.zip mag_range).length = computed_snrs.length := by
    rw [List.length_zip]; omega
  unfold _mag2sn_ interp1d
  rcases hmono with hinc | hdec
  · -- ascending table: scipy's sort leaves the points in place
    have hcs : computed_snrs[i] < computed_snrs[i + 1] :=
      List.pairwise_iff_getElem.mp hinc i (i + 1) (by omega) hi (by omega)
    have h1 : computed_snrs[i] ≤ t := by rcases hseg with ⟨h, -⟩ | ⟨h1, h2⟩; · exact h
                                         · linarith
    have h2 : t ≤ computed_snrs[i + 1] := by rcases hseg with ⟨-, h⟩ | ⟨h1, h2⟩; · exact h
                                             · linarith
    have hpair : (computed_snrs.zip mag_range).Pairwise (fun a b => a.1 < b.1) :=
      zip_pairwise_fst hinc
    rw [sortPairs_of_sorted (hpair.imp le_of_lt)]
    rw [interpSegs_getElem t _ i (by omega) hpair
      (by rw [List.getElem_zip]; exact h1) (by rw [List.getElem_zip]; exact h2)]
    simp only [List.getElem_zip, lin]
  · -- descending table: scipy's sort reverses the points
    have hcs : computed_snrs[i + 1] < computed_snrs[i] :=
      List.pairwise_iff_getElem.mp hdec i (i + 1) (by omega) hi (by omega)
    have h1 : computed_snrs[i + 1] ≤ t := by rcases hseg with ⟨h1, h2⟩ | ⟨h, -⟩
                                             · linarith
                                             · exact h
    have h2 : t ≤ computed_snrs[i] := by rcases hseg with ⟨h1, h2⟩ | ⟨-, h⟩
                                         · linarith
                                         · exact h
    have hpair : (computed_snrs.zip mag_range).Pairwise (fun a b => b.1 < a.1) :=
      zip_pairwise_fst hdec
    rw [sortPairs_of_revsorted hpair]
    have hrevlen : (computed_snrs.zip mag_range).reverse.length = computed_snrs.length := by
      rw [List.length_reverse]; omega
    have hj : (computed_snrs.length - 2 - i) + 1 < (computed_snrs.zip mag_range).reverse.length := by
      omega
    have hrevpair : (computed_snrs.zip mag_range).reverse.Pairwise (fun a b => a.1 < b.1) := by
      rw [List.pairwise_reverse]
      exact hpair
    have ej : (computed_snrs.zip mag_range).reverse[computed_snrs.length - 2 - i]
        = (computed_snrs[i + 1], mag_range[i + 1]) := by
      rw [List.getElem_reverse]
      have : (computed_snrs.zip mag_range).length - 1 - (computed_snrs.length - 2 - i)
          = i + 1 := by omega
      simp only [this, List.getElem_zip]
    have ej1 : (computed_snrs.zip mag_range).reverse[(computed_snrs.length - 2 - i) + 1]
        = (computed_snrs[i], mag_range[i]) := by
      rw [List.getElem_reverse]
      have : (computed_snrs.zip mag_range).length - 1 - ((computed_snrs.length - 2 - i) + 1)
          = i := by omega
      simp only [this, List.getElem_zip]
    rw [interpSegs_getElem t _ (computed_snrs.length - 2 - i) hj hrevpair
      (by rw [ej]; exact h1) (by rw [ej1]; exact h2)]
    rw [ej, ej1, lin_symm (by simpa using ne_of_lt hcs)]
    simp only [lin]

/-- Witness for C1: a two-row table with descending S/N column, target
halfway between the knots. -/
theorem mag2sn_is_piecewise_linear_interpolation_witness :
    _mag2sn_ [24, 26] [10, 4] 7 = 25 := by
  have h := mag2sn_is_piecewise_linear_interpolation [24, 26] [10, 4] (by decide)
    (Or.inr (by decide)) 0 (by decide) 7 (Or.inr (by norm_num))
  rw [h]
  norm_num

/-- C9: for every non-negative flag value `uu`, the data-quality
decoding loop prints exactly those bit positions `ii` at which the
binary representation of `uu` has a 1, and the sum of `2^ii` over the
printed positions equals `uu`. -/
theorem dq_decoding_loop_correct (uu : ℕ) :
    (∀ ii, ii ∈ bits_on uu ↔ uu.testBit ii = true) ∧
    ((bits_on uu).map (fun ii => 2 ^ ii)).sum = uu :=
  ⟨fun ii => bits_on_mem uu ii, by rw [bits_on_eq_binRec]; exact binRec_sum uu⟩

/-- C3: for every filter, exposure count and integer bracket
`(b0, b1)` with `b0 ≤ b1`, `compute_mag` returns the magnitudes
`b0, b0+1, …, b1` (length `b1 - b0 + 1`) and a same-length S/N list
whose `i`-th entry is the scalar S/N reported by the external
`perform_calculation` for a source of AB magnitude `b0 + i`. -/
theorem compute_mag_spec {π : Type} (perform_calculation : Calc π → Report)
    (build_default_calc : Calc π) (filt : String) (nexp : ℤ) (b0 b1 : ℤ)
    (h : b0 ≤ b1) :
    (compute_mag perform_calculation build_default_calc filt nexp (b0, b1)).1.length
        = (b1 - b0 + 1).toNat
    ∧ (compute_mag perform_calculation build_default_calc filt nexp (b0, b1)).2.length
        = (compute_mag perform_calculation build_default_calc filt nexp (b0, b1)).1.length
    ∧ (∀ i : ℕ,
        ∀ hi : i < (compute_mag perform_calculation build_default_calc filt nexp (b0, b1)).1.length,
        (compute_mag perform_calculation build_default_calc filt nexp (b0, b1)).1[i]
          = b0 + (i : ℤ))
    ∧ (∀ i : ℕ,
        ∀ hi : i < (compute_mag perform_calculation build_default_calc filt nexp (b0, b1)).2.length,
        (compute_mag perform_calculation build_default_calc filt nexp (b0, b1)).2[i]
          = (perform_calculation
              { build_default_calc with
                norm_flux := ((b0 + (i : ℤ) : ℤ) : ℚ), norm_fluxunit := "abmag",
                norm_waveunit := "um", nexp := nexp, filter := filt }).sn) := by
  refine ⟨?_, ?_, ?_, ?_⟩
  · simp only [compute_mag, List.length_map, List.length_range]
    omega
  · simp only [compute_mag, List.length_map, List.length_range]
  · intro i hi
    simp only [compute_mag, List.length_map, List.length_range] at hi
    simp only [compute_mag, List.getElem_map, List.getElem_range]
  · intro i hi
    simp only [compute_mag, List.length_map, List.length_range] at hi
    simp only [compute_mag, List.getElem_map, List.getElem_range]

/-- Witness for C3: a three-magnitude bracket with an S/N oracle that
reads the configured flux back out. -/
theorem compute_mag_spec_witness :
    (2 : ℤ) ≤ 4
    ∧ (compute_mag (fun c : Calc Unit => ⟨c.norm_flux, 0⟩) ⟨0, "", "", 0, "", ()⟩
        "F129" 10 (2, 4)).1.length = ((4 : ℤ) - 2 + 1).toNat := by
  refine ⟨by decide, ?_⟩
  exact (compute_mag_spec (fun c : Calc Unit => ⟨c.norm_flux, 0⟩) ⟨0, "", "", 0, "", ()⟩
    "F129" 10 2 4 (by decide)).1

/-- C4: `compute_nexp` returns a triple `(nexp, report, exptime)` in
which `exptime` is exactly the `total_exposure_time` scalar of the
returned report, and the returned report itself is the output of a call
into the external `perform_calculation` — the glue never computes the
exposure time. -/
theorem compute_nexp_exptime_from_report {π : Type}
    (perform_calculation : Calc π → Report)
    (minimize_scalar : (ℚ → ℚ) → ℤ × ℤ → ℚ → ℚ) (build_default_calc : Calc π)
    (filt : String) (sn mag : ℚ) (bracket : ℤ × ℤ) (xtol : ℚ) :
    (compute_nexp perform_calculation minimize_scalar build_default_calc
        filt sn mag bracket xtol).2.2
      = ((compute_nexp perform_calculation minimize_scalar build_default_calc
        filt sn mag bracket xtol).2.1).total_exposure_time
    ∧ ∃ c : Calc π,
        (compute_nexp perform_calculation minimize_scalar build_default_calc
          filt sn mag bracket xtol).2.1 = perform_calculation c := by
  unfold compute_nexp
  dsimp only
  split
  · exact ⟨rfl, _, rfl⟩
  · exact ⟨rfl, _, rfl⟩

/-- C5: `make_catalog_synthetic` writes a catalog whose columns are
`ra, dec, type, n, half_light_radius, pa, ba, F158`, each with exactly
`n_psf + n_ser` rows, the first `n_psf` rows of `type` being `"PSF"`
and the remaining `n_ser` rows `"SER"`. -/
theorem make_catalog_synthetic_shape (draw : ℤ → ℕ → ℚ) (ops : MathOps)
    (g0 : GlobalRng) (outfile_name : String) (ra dec : ℚ) (bandpass : String)
    (n_ser n_psf : ℕ) (area : ℚ) (seed : ℤ) :
    (make_catalog_synthetic draw ops g0 outfile_name ra dec bandpass
        n_ser n_psf area seed).1.names
      = ["ra", "dec", "type", "n", "half_light_radius", "pa", "ba", "F158"]
    ∧ (make_catalog_synthetic draw ops g0 outfile_name ra dec bandpass
        n_ser n_psf area seed).1.ra.length = n_psf + n_ser
    ∧ (make_catalog_synthetic draw ops g0 outfile_name ra dec bandpass
        n_ser n_psf area seed).1.dec.length = n_psf + n_ser
    ∧ (make_catalog_synthetic draw ops g0 outfile_name ra dec bandpass
        n_ser n_psf area seed).1.type.length = n_psf + n_ser
    ∧ (make_catalog_synthetic draw ops g0 outfile_name ra dec bandpass
        n_ser n_psf area seed).1.n.length = n_psf + n_ser
    ∧ (make_catalog_synthetic draw ops g0 outfile_name ra dec bandpass
        n_ser n_psf area seed).1.half_light_radius.length = n_psf + n_ser
    ∧ (make_catalog_synthetic draw ops g0 outfile_name ra dec bandpass
        n_ser n_psf area seed).1.pa.length = n_psf + n_ser
    ∧ (make_catalog_synthetic draw ops g0 outfile_name ra dec bandpass
        n_ser n_psf area seed).1.ba.length = n_psf + n_ser
    ∧ (make_catalog_synthetic draw ops g0 outfile_name ra dec bandpass
        n_ser n_psf area seed).1.F158.length = n_psf + n_ser
    ∧ (∀ i : ℕ, i < n_psf →
        (make_catalog_synthetic draw ops g0 outfile_name ra dec bandpass
          n_ser n_psf area seed).1.type.getD i "" = "PSF")
    ∧ (∀ i : ℕ, n_psf ≤ i → i < n_psf + n_ser →
        (make_catalog_synthetic draw ops g0 outfile_name ra dec bandpass
          n_ser n_psf area seed).1.type.getD i "" = "SER") := by
  refine ⟨rfl, ?_, ?_, ?_, ?_, ?_, ?_, ?_, ?_, ?_, ?_⟩
  all_goals
    simp only [make_catalog_synthetic, npUniform, npSeed, List.length_map,
      List.length_range, List.length_append, List.length_replicate]
  · intro i hi
    rw [List.getD_eq_getElem _ _ (by simp; omega)]
    rw [List.getElem_append_left (by simp; omega)]
    simp
  · intro i hi1 hi2
    rw [List.getD_eq_getElem _ _ (by simp; omega)]
    rw [List.getElem_append_right (by simp; omega)]
    simp

/-- Witness for C5: one point source and two Sersic sources, with a
constant stream oracle and identity float oracles. -/
theorem make_catalog_synthetic_shape_witness :
    ((make_catalog_synthetic (fun _ _ => 0) ⟨id, id, id, id⟩ ⟨0, 0⟩ "catalog_mixed.csv"
        0 0 "F158" 2 1 (24/100) 12).1.type.getD 0 "" = "PSF")
    ∧ ((make_catalog_synthetic (fun _ _ => 0) ⟨id, id, id, id⟩ ⟨0, 0⟩ "catalog_mixed.csv"
        0 0 "F158" 2 1 (24/100) 12).1.type.getD 2 "" = "SER") :=
  ⟨(make_catalog_synthetic_shape (fun _ _ => 0) ⟨id, id, id, id⟩ ⟨0, 0⟩ "catalog_mixed.csv"
      0 0 "F158" 2 1 (24/100) 12).2.2.2.2.2.2.2.2.2.1 0 (by decide),
   (make_catalog_synthetic_shape (fun _ _ => 0) ⟨id, id, id, id⟩ ⟨0, 0⟩ "catalog_mixed.csv"
      0 0 "F158" 2 1 (24/100) 12).2.2.2.2.2.2.2.2.2.2 2 (by decide) (by decide)⟩

/-- C10: `make_catalog_synthetic` is deterministic in its arguments —
the catalog it writes does not depend on the state of the global random
generator before the call, because the function begins by reseeding the
generator with its `seed` argument. -/
theorem make_catalog_synthetic_deterministic (draw : ℤ → ℕ → ℚ) (ops : MathOps)
    (g1 g2 : GlobalRng) (outfile_name : String) (ra dec : ℚ) (bandpass : String)
    (n_ser n_psf : ℕ) (area : ℚ) (seed : ℤ) :
    (make_catalog_synthetic draw ops g1 outfile_name ra dec bandpass
        n_ser n_psf area seed).1
      = (make_catalog_synthetic draw ops g2 outfile_name ra dec bandpass
        n_ser n_psf area seed).1 := rfl

/-- C2, counterexample: `make_catalog_gaia` raises an error of its own
(`RuntimeError('output file name should end with .ecsv')`) when asked
to write to a `.csv` file — a failure originating in the glue code, not
in an external library. -/
theorem make_catalog_gaia_raises_own_error :
    make_catalog_gaia (fun _ => (⟨[], ()⟩ : GaiaTable Unit)) (fun _ _ _ => ())
      ["F158"] "catalog_gaia.csv" 0 0 "2026-01-01" none 1 1000
      = Except.error "output file name should end with .ecsv" := rfl

/-- C2, amended: the glue code catches no exception, and the only error
it raises of its own is `make_catalog_gaia`'s `RuntimeError`, raised
exactly when the output file name does not end in `.ecsv`; with an
`.ecsv` name the function returns the externally produced catalog. -/
theorem make_catalog_gaia_error_condition {γ δ : Type}
    (launch_job : String → GaiaTable γ)
    (gaia2romanisimcat : GaiaTable γ → String → List String → δ)
    (default_bandpasses : List String) (outfile_name : String) (ra dec : ℚ)
    (date : String) (bandpasses : Option (List String)) (radius : ℚ)
    (row_limit : ℤ) :
    (endswith outfile_name ".ecsv" = false →
      make_catalog_gaia launch_job gaia2romanisimcat default_bandpasses
        outfile_name ra dec date bandpasses radius row_limit
        = Except.error "output file name should end with .ecsv")
    ∧ (endswith outfile_name ".ecsv" = true →
      ∃ d : δ,
        make_catalog_gaia launch_job gaia2romanisimcat default_bandpasses
          outfile_name ra dec date bandpasses radius row_limit
          = Except.ok d) := by
  constructor
  · intro hend
    unfold make_catalog_gaia
    simp [hend]
  · intro hend
    unfold make_catalog_gaia
    simp [hend]

/-- Witness for C2's amended claim: a valid `.ecsv` output name gives a
successful write of the external converter's output. -/
theorem make_catalog_gaia_error_condition_witness :
    (endswith "catalog_gaia.ecsv" ".ecsv" = true)
    ∧ ∃ d : Unit,
        make_catalog_gaia (fun _ => (⟨[], ()⟩ : GaiaTable Unit)) (fun _ _ _ => ())
          ["F158"] "catalog_gaia.ecsv" 0 0 "2026-01-01" none 1 1000
          = Except.ok d := by
  refine ⟨by decide, ?_⟩
  exact (make_catalog_gaia_error_condition (fun _ => (⟨[], ()⟩ : GaiaTable Unit))
    (fun _ _ _ => ()) ["F158"] "catalog_gaia.ecsv" 0 0 "2026-01-01" none 1 1000).2
    (by decide)

/-- C6: `sersic_mod` returns the flattening of the `(nx, ny)`-shaped
model image the external renderer draws for the PSF-convolved Sersic
profile of the given parameters, a one-dimensional array of
length `nx * ny`. -/
theorem sersic_mod_draws_model (drawO : GSObject → ℚ × ℚ → ℕ → ℕ → ℚ)
    (psf_obj : GSObject) (zp : ℚ) (cutout_shape : ℕ × ℕ)
    (n hlr flux pa x0 y0 q : ℚ) :
    sersic_mod drawO psf_obj zp cutout_shape n hlr flux pa x0 y0 q
      = (drawImageArray drawO
          (GSObject.convolve (GSObject.sersic n hlr (flux * zp)) psf_obj)
          cutout_shape.1 cutout_shape.2 (x0, y0)).flatten
    ∧ (sersic_mod drawO psf_obj zp cutout_shape n hlr flux pa x0 y0 q).length
        = cutout_shape.1 * cutout_shape.2 := by
  refine ⟨rfl, ?_⟩
  unfold sersic_mod drawImageArray
  rw [List.length_flatten]
  simp only [List.map_map]
  have hcomp : (List.length ∘ fun r => (List.range cutout_shape.1).map
      (fun c => drawO (GSObject.convolve (GSObject.sersic n hlr (flux * zp)) psf_obj)
        (x0, y0) r c)) = fun _ => cutout_shape.1 := by
    funext r
    simp
  rw [hcomp]
  simp [List.map_const', Nat.mul_comm]

/-- C8: the position-angle and axis-ratio arguments of `sersic_mod`
have no effect on its output — the sheared profile built from them is
discarded, so two calls agreeing on the other parameters return
identical arrays. -/
theorem sersic_mod_ignores_pa_and_q (drawO : GSObject → ℚ × ℚ → ℕ → ℕ → ℚ)
    (psf_obj : GSObject) (zp : ℚ) (cutout_shape : ℕ × ℕ)
    (n hlr flux pa pa2 x0 y0 q q2 : ℚ) :
    sersic_mod drawO psf_obj zp cutout_shape n hlr flux pa x0 y0 q
      = sersic_mod drawO psf_obj zp cutout_shape n hlr flux pa2 x0 y0 q2 := rfl

end RomanNotebooks
